import Mathlib

/-!
Verification of `aten/src/ATen/core/op_registration/op_whitelist.h`.

The header defines four constexpr admission checks used for selective builds:
`op_whitelist_contains`, `op_whitelist_check`, `schema_whitelist_check` and
`dispatch_key_whitelist_check`.  Strings (`c10::string_view`) are embedded as
`List Char`; the preprocessor configuration (`TORCH_OPERATOR_WHITELIST`,
`TORCH_FORCE_SCHEMA_REGISTRATION`, `C10_MOBILE`) is embedded as explicit
parameters (`Option (List Char)` for the optionally-absent allow-list, `Bool`
for the two flags).
-/

/-- Index of the first occurrence of character `c` in `s`, if any.  Embeds
`c10::string_view::find(c, cur)`: the position argument of the C++ call is
handled by applying this function to the suffix of the string starting at
`cur`, so `some i` corresponds to the C++ result `cur + i` and `none` to
`string_view::npos`. -/
def findIdxChar (c : Char) : List Char → Option Nat
  | [] => none
  | a :: s => if a = c then some 0 else (findIdxChar c s).map (· + 1)

/-- Embeds `c10::impl::op_whitelist_contains` (op_whitelist.h lines 33-50).
The C++ loop keeps an absolute cursor `cur`; here each iteration is a
recursive call on the suffix of the whitelist starting at `cur`.  When a `;`
is found at (relative) position `next`, the segment `substr(cur, next-cur)`
is `whitelist.take next`, and the cursor advances past the delimiter, i.e.
to the suffix `whitelist.drop (next + 1)`; when no `;` remains, the final
segment `substr(cur)` is the whole suffix and the loop breaks. -/
def op_whitelist_contains (whitelist item : List Char) : Bool :=
  match h : findIdxChar ';' whitelist with
  | some next =>
    if whitelist.take next == item then true
    else op_whitelist_contains (whitelist.drop (next + 1)) item
  | none => whitelist == item
termination_by whitelist.length
decreasing_by
  have hlt : ∀ (s : List Char) (n : Nat), findIdxChar ';' s = some n → n < s.length := by
    intro s
    induction s with
    | nil => intro n hn; simp [findIdxChar] at hn
    | cons a t ih =>
      intro n hn
      rw [findIdxChar] at hn
      by_cases ha : a = ';'
      · simp [ha] at hn
        simp only [List.length_cons]
        omega
      · simp [ha] at hn
        obtain ⟨j, hj, rfl⟩ := hn
        have h2 : j < t.length := ih j hj
        simp only [List.length_cons]
        omega
  have h3 := hlt whitelist next h
  simp only [List.length_drop]
  omega

/-- The C++ loop of `op_whitelist_contains` with an explicit iteration budget:
`containsFuel item fuel s` runs the loop body at most `fuel` times starting
from the suffix `s`, returning `none` if the budget is exhausted before the
loop returns or breaks.  Used to state that the loop terminates within
`length + 1` iterations. -/
def containsFuel (item : List Char) : Nat → List Char → Option Bool
  | 0, _ => none
  | fuel + 1, s =>
    match findIdxChar ';' s with
    | some next =>
      if s.take next == item then some true
      else containsFuel item fuel (s.drop (next + 1))
    | none => some (s == item)

/-- Modelled from the spec: `OperatorNameView::parse(op_name).name` (the code
of `OperatorNameView` is not under src/, only its caller at op_whitelist.h
line 64 is).  Per the spec, the membership check "strips any overload suffix
(text from the first `.` onward)" from the qualified name, leaving only the
base name; a name with no `.` is left unchanged. -/
def stripOverloadName (op_name : List Char) : List Char :=
  match findIdxChar '.' op_name with
  | some i => op_name.take i
  | none => op_name

/-- Embeds `schema.substr(0, schema.find("("))` (op_whitelist.h line 75):
the substring of the schema up to (excluding) the first `(`.  When no `(`
occurs, `find` returns `npos` and `substr(0, npos)` is the entire string. -/
def substrToParen (schema : List Char) : List Char :=
  match findIdxChar '(' schema with
  | some i => schema.take i
  | none => schema

/-- Embeds the test whether a name contains the namespace separator `::`
(the precondition documented for `op_whitelist_check`). -/
def hasNamespaceSep (s : List Char) : Bool :=
  decide (List.IsInfix [':', ':'] s)

/-- Embeds `c10::impl::op_whitelist_check` (op_whitelist.h lines 54-67).
`cfg = none` embeds a build where `TORCH_OPERATOR_WHITELIST` is not defined;
`cfg = some wl` embeds a build where it is defined and stringizes to `wl`.
The `assert` on line 55 is not embedded: its expression
`op_name.find("::").compare(string_view::npos) != 0` calls `.compare` on the
`size_t` returned by `find`, which is ill-formed C++, so the line only
compiles when `assert` expands to nothing (NDEBUG) and then checks
nothing; the function therefore never aborts in any build that compiles. -/
def op_whitelist_check (cfg : Option (List Char)) (op_name : List Char) : Bool :=
  match cfg with
  | none => true
  | some wl => op_whitelist_contains wl (stripOverloadName op_name)

/-- Embeds `c10::impl::schema_whitelist_check` (op_whitelist.h lines 71-77).
`forceSchemaRegistration` embeds whether `TORCH_FORCE_SCHEMA_REGISTRATION`
is defined. -/
def schema_whitelist_check (forceSchemaRegistration : Bool)
    (cfg : Option (List Char)) (schema : List Char) : Bool :=
  if forceSchemaRegistration then true
  else op_whitelist_check cfg (substrToParen schema)

/-- Modelled from the spec: the dispatch-key enumeration (c10/core/DispatchKey.h
is not under src/).  Constructors cover the keys named by op_whitelist.h line 84
and the spec (CPU, Vulkan, QuantizedCPU, BackendSelect, CatchAll, CUDA) plus
representative further backend tags of the enumeration. -/
inductive DispatchKey where
  | CPU
  | CUDA
  | HIP
  | FPGA
  | XLA
  | Vulkan
  | Metal
  | QuantizedCPU
  | QuantizedCUDA
  | MkldnnCPU
  | SparseCPU
  | SparseCUDA
  | BackendSelect
  | Autograd
  | CatchAll
deriving DecidableEq

/-- Embeds `c10::impl::dispatch_key_whitelist_check` (op_whitelist.h lines
82-88).  `c10_mobile` embeds whether `C10_MOBILE` is defined (the constrained
mobile profile). -/
def dispatch_key_whitelist_check (c10_mobile : Bool) (k : DispatchKey) : Bool :=
  if c10_mobile then
    decide (k = DispatchKey.CPU) || decide (k = DispatchKey.Vulkan)
      || decide (k = DispatchKey.QuantizedCPU) || decide (k = DispatchKey.BackendSelect)
      || decide (k = DispatchKey.CatchAll)
  else
    true

theorem findIdxChar_lt_length {c : Char} :
    ∀ {s : List Char} {i : Nat}, findIdxChar c s = some i → i < s.length := by
  intro s
  induction s with
  | nil => intro i h; simp [findIdxChar] at h
  | cons a t ih =>
    intro i h
    rw [findIdxChar] at h
    by_cases ha : a = c
    · simp [ha] at h
      simp only [List.length_cons]
      omega
    · simp [ha] at h
      obtain ⟨j, hj, rfl⟩ := h
      have := ih hj
      simp only [List.length_cons]
      omega

theorem findIdxChar_not_mem {c : Char} :
    ∀ {s : List Char}, findIdxChar c s = none → c ∉ s := by
  intro s
  induction s with
  | nil => intro _ hm; simp at hm
  | cons a t ih =>
    intro h hm
    rw [findIdxChar] at h
    by_cases ha : a = c
    · simp [ha] at h
    · simp [ha] at h
      rcases List.mem_cons.mp hm with hc | hc
      · exact ha hc.symm
      · exact ih h hc

theorem findIdxChar_take {c : Char} :
    ∀ {s : List Char} {i : Nat}, findIdxChar c s = some i → c ∉ s.take i := by
  intro s
  induction s with
  | nil => intro i h; simp [findIdxChar] at h
  | cons a t ih =>
    intro i h
    rw [findIdxChar] at h
    by_cases ha : a = c
    · simp [ha] at h
      subst h
      simp
    · simp [ha] at h
      obtain ⟨j, hj, rfl⟩ := h
      intro hm
      rw [List.take_succ_cons] at hm
      rcases List.mem_cons.mp hm with hc | hc
      · exact ha hc.symm
      · exact ih hj hc

theorem findIdxChar_drop {c : Char} :
    ∀ {s : List Char} {i : Nat}, findIdxChar c s = some i → s.drop i = c :: s.drop (i + 1) := by
  intro s
  induction s with
  | nil => intro i h; simp [findIdxChar] at h
  | cons a t ih =>
    intro i h
    rw [findIdxChar] at h
    by_cases ha : a = c
    · simp [ha] at h
      subst h
      simp [ha]
    · simp [ha] at h
      obtain ⟨j, hj, rfl⟩ := h
      simpa using ih hj

theorem findIdxChar_decomp {c : Char} {s : List Char} {i : Nat}
    (h : findIdxChar c s = some i) : s = s.take i ++ c :: s.drop (i + 1) := by
  conv_lhs => rw [← List.take_append_drop i s]
  rw [findIdxChar_drop h]

theorem op_whitelist_contains_none {w t : List Char} (h : findIdxChar ';' w = none) :
    op_whitelist_contains w t = (w == t) := by
  rw [op_whitelist_contains]
  split
  · rename_i heq
    rw [h] at heq
    exact absurd heq (by simp)
  · rfl

theorem op_whitelist_contains_some {w t : List Char} {i : Nat}
    (h : findIdxChar ';' w = some i) :
    op_whitelist_contains w t
      = if w.take i == t then true else op_whitelist_contains (w.drop (i + 1)) t := by
  rw [op_whitelist_contains]
  split
  · rename_i j heq
    rw [h] at heq
    injection heq with heq
    subst heq
    rfl
  · rename_i heq
    rw [h] at heq
    exact absurd heq (by simp)

theorem containsFuel_complete :
    ∀ (fuel : Nat) (w t : List Char), w.length < fuel →
      containsFuel t fuel w = some (op_whitelist_contains w t) := by
  intro fuel
  induction fuel with
  | zero => intro w t h; exact absurd h (by omega)
  | succ f ih =>
    intro w t h
    rcases hf : findIdxChar ';' w with _ | i
    · rw [op_whitelist_contains_none hf]
      simp only [containsFuel, hf]
    · rw [op_whitelist_contains_some hf]
      simp only [containsFuel, hf]
      by_cases hc : (w.take i == t) = true
      · simp [hc]
      · have hlt := findIdxChar_lt_length hf
        have hlen : (w.drop (i + 1)).length < f := by
          simp only [List.length_drop]
          omega
        simp only [hc, if_false, Bool.false_eq_true]
        exact ih (w.drop (i + 1)) t hlen

theorem op_whitelist_contains_eval (w t : List Char) :
    op_whitelist_contains w t = (containsFuel t (w.length + 1) w).getD false := by
  rw [containsFuel_complete (w.length + 1) w t (by omega)]
  rfl

theorem op_whitelist_contains_iff_mem_splitOn (w t : List Char) :
    op_whitelist_contains w t = true ↔ t ∈ w.splitOn ';' := by
  rcases hf : findIdxChar ';' w with _ | i
  · rw [op_whitelist_contains_none hf]
    have hnot : ';' ∉ w := findIdxChar_not_mem hf
    have hsplit : w.splitOn ';' = [w] := by
      simp only [List.splitOn]
      exact List.splitOnP_eq_single _ _ (fun x hx => by
        simp only [beq_iff_eq]
        intro hxc
        exact hnot (hxc ▸ hx))
    rw [hsplit]
    simp only [beq_iff_eq, List.mem_singleton]
    exact eq_comm
  · rw [op_whitelist_contains_some hf]
    have hdec := findIdxChar_decomp hf
    have htake : ';' ∉ w.take i := findIdxChar_take hf
    have hsplit : w.splitOn ';' = w.take i :: (w.drop (i + 1)).splitOn ';' := by
      conv_lhs => rw [hdec]
      simp only [List.splitOn]
      exact List.splitOnP_first _ _
        (fun x hx => by
          simp only [beq_iff_eq]
          intro hxc
          exact htake (hxc ▸ hx))
        ';' (by simp) _
    rw [hsplit]
    have ihm := op_whitelist_contains_iff_mem_splitOn (w.drop (i + 1)) t
    by_cases hc : (w.take i == t) = true
    · rw [if_pos hc]
      simp only [beq_iff_eq] at hc
      subst hc
      simp
    · rw [if_neg hc]
      rw [ihm]
      have hne : t ≠ w.take i := by
        intro he
        exact hc (by simp [he])
      simp [List.mem_cons, hne]
termination_by w.length
decreasing_by
  have := findIdxChar_lt_length hf
  simp only [List.length_drop]
  omega

theorem findIdxChar_eq_none_of_not_mem {c : Char} :
    ∀ {s : List Char}, c ∉ s → findIdxChar c s = none := by
  intro s
  induction s with
  | nil => intro _; rfl
  | cons a t ih =>
    intro h
    rw [findIdxChar]
    have ha : a ≠ c := fun he => h (he ▸ List.mem_cons_self a t)
    have ht : c ∉ t := fun hm => h (List.mem_cons_of_mem a hm)
    simp [ha, ih ht]

theorem takeWhile_ne_of_not_mem {c : Char} :
    ∀ {s : List Char}, c ∉ s → s.takeWhile (fun a => a != c) = s := by
  intro s
  induction s with
  | nil => intro _; rfl
  | cons a t ih =>
    intro h
    have ha : a ≠ c := fun he => h (he ▸ List.mem_cons_self a t)
    have ht : c ∉ t := fun hm => h (List.mem_cons_of_mem a hm)
    simp [List.takeWhile_cons, ha, ih ht]

theorem takeWhile_ne_append {c : Char} :
    ∀ {p : List Char}, c ∉ p → ∀ o : List Char,
      (p ++ c :: o).takeWhile (fun a => a != c) = p := by
  intro p
  induction p with
  | nil => intro _ o; simp [List.takeWhile_cons]
  | cons a t ih =>
    intro h o
    have ha : a ≠ c := fun he => h (he ▸ List.mem_cons_self a t)
    have ht : c ∉ t := fun hm => h (List.mem_cons_of_mem a hm)
    simp [List.takeWhile_cons, ha, ih ht o]

theorem stripOverloadName_eq_takeWhile (s : List Char) :
    stripOverloadName s = s.takeWhile (fun a => a != '.') := by
  rcases h : findIdxChar '.' s with _ | i
  · simp only [stripOverloadName, h]
    exact (takeWhile_ne_of_not_mem (findIdxChar_not_mem h)).symm
  · simp only [stripOverloadName, h]
    conv_rhs => rw [findIdxChar_decomp h]
    rw [takeWhile_ne_append (findIdxChar_take h)]

theorem substrToParen_eq_takeWhile (s : List Char) :
    substrToParen s = s.takeWhile (fun a => a != '(') := by
  rcases h : findIdxChar '(' s with _ | i
  · simp only [substrToParen, h]
    exact (takeWhile_ne_of_not_mem (findIdxChar_not_mem h)).symm
  · simp only [substrToParen, h]
    conv_rhs => rw [findIdxChar_decomp h]
    rw [takeWhile_ne_append (findIdxChar_take h)]

theorem stripOverloadName_no_dot {s : List Char} (h : '.' ∉ s) :
    stripOverloadName s = s := by
  rw [stripOverloadName_eq_takeWhile]
  exact takeWhile_ne_of_not_mem h

theorem stripOverloadName_split {p : List Char} (h : '.' ∉ p) (o : List Char) :
    stripOverloadName (p ++ '.' :: o) = p := by
  rw [stripOverloadName_eq_takeWhile]
  exact takeWhile_ne_append h o

theorem substrToParen_no_paren {s : List Char} (h : '(' ∉ s) :
    substrToParen s = s := by
  rw [substrToParen_eq_takeWhile]
  exact takeWhile_ne_of_not_mem h

/-- C1: For every delimiter-joined list string L and every token string t,
`op_whitelist_contains L t` returns true if and only if t is byte-for-byte
equal to one of the `;`-separated segments of L (`List.splitOn ';' L`, which
includes the empty segments arising from adjacent, leading or trailing
delimiters); in particular on the five concrete examples of the spec. -/
theorem C1_op_whitelist_contains_iff_segments :
    (∀ L t : List Char, op_whitelist_contains L t = true ↔ t ∈ L.splitOn ';')
      ∧ op_whitelist_contains "a;bc;d".toList "bc".toList = true
      ∧ op_whitelist_contains "a;bc;d".toList "b".toList = false
      ∧ op_whitelist_contains "".toList "".toList = true
      ∧ op_whitelist_contains ";;".toList "".toList = true
      ∧ op_whitelist_contains "a;bc;d".toList "d".toList = true := by
  refine ⟨op_whitelist_contains_iff_mem_splitOn, ?_, ?_, ?_, ?_, ?_⟩ <;>
    rw [op_whitelist_contains_eval] <;> decide

/-- C2: When no operator allow-list is configured for the build (the
`TORCH_OPERATOR_WHITELIST` parameter is absent, embedded as `cfg = none`),
`op_whitelist_check` returns true for every well-formed qualified operator
name (every name containing `::`). -/
theorem C2_no_whitelist_admits_all (op_name : List Char)
    (h : hasNamespaceSep op_name = true) :
    op_whitelist_check none op_name = true := rfl

theorem C2_no_whitelist_admits_all_witness :
    hasNamespaceSep "aten::add".toList = true
      ∧ op_whitelist_check none "aten::add".toList = true :=
  ⟨by decide, C2_no_whitelist_admits_all "aten::add".toList (by decide)⟩

/-- C3: When the schema-registration override flag is not active,
`schema_whitelist_check` equals `op_whitelist_check` applied to the substring
of the schema up to (and excluding) the first `(` character (expressed
independently of the implementation as `takeWhile (· != '(')`); when the
schema contains no `(` it equals `op_whitelist_check` of the entire string;
and the two concrete examples of the spec hold. -/
theorem C3_schema_check_strips_argument_list :
    (∀ (cfg : Option (List Char)) (schema : List Char),
        schema_whitelist_check false cfg schema
          = op_whitelist_check cfg (schema.takeWhile (fun a => a != '(')))
      ∧ (∀ (cfg : Option (List Char)) (schema : List Char), '(' ∉ schema →
          schema_whitelist_check false cfg schema = op_whitelist_check cfg schema)
      ∧ schema_whitelist_check false (some "aten::add".toList)
          "aten::add.Tensor(Tensor self, Tensor other) -> Tensor".toList = true
      ∧ schema_whitelist_check false (some "aten::sub".toList)
          "aten::add.Tensor(Tensor self, Tensor other) -> Tensor".toList = false := by
  refine ⟨?_, ?_, ?_, ?_⟩
  · intro cfg schema
    simp only [schema_whitelist_check, if_false, Bool.false_eq_true]
    rw [substrToParen_eq_takeWhile]
  · intro cfg schema h
    simp only [schema_whitelist_check, if_false, Bool.false_eq_true]
    rw [substrToParen_no_paren h]
  · simp only [schema_whitelist_check, if_false, Bool.false_eq_true, op_whitelist_check]
    rw [op_whitelist_contains_eval]
    decide
  · simp only [schema_whitelist_check, if_false, Bool.false_eq_true, op_whitelist_check]
    rw [op_whitelist_contains_eval]
    decide

theorem C3_schema_check_strips_argument_list_witness :
    ('(' ∉ "aten::relu".toList)
      ∧ schema_whitelist_check false none "aten::relu".toList
          = op_whitelist_check none "aten::relu".toList :=
  ⟨by decide,
    C3_schema_check_strips_argument_list.2.1 none "aten::relu".toList (by decide)⟩

/-- C4: For every qualified name of the form `ns::base.overload` and every
configured allow-list, `op_whitelist_check` gives the same decision on
`ns::base.overload` as on `ns::base`: the check strips everything from the
first `.` onward before the membership test, so an overload suffix never
changes the admission decision. -/
theorem C4_overload_suffix_never_changes_decision
    (cfg : Option (List Char)) (ns base overload : List Char)
    (hns : '.' ∉ ns) (hbase : '.' ∉ base) :
    op_whitelist_check cfg (ns ++ ':' :: ':' :: base ++ '.' :: overload)
      = op_whitelist_check cfg (ns ++ ':' :: ':' :: base) := by
  cases cfg with
  | none => rfl
  | some wl =>
    simp only [op_whitelist_check]
    have hp : '.' ∉ ns ++ ':' :: ':' :: base := by
      intro hm
      rcases List.mem_append.mp hm with hm1 | hm2
      · exact hns hm1
      · rcases List.mem_cons.mp hm2 with hc | hm3
        · exact absurd hc.symm (by decide)
        · rcases List.mem_cons.mp hm3 with hc | hm4
          · exact absurd hc.symm (by decide)
          · exact hbase hm4
    rw [stripOverloadName_split hp, stripOverloadName_no_dot hp]

theorem C4_overload_suffix_never_changes_decision_witness :
    ('.' ∉ "aten".toList) ∧ ('.' ∉ "add".toList)
      ∧ op_whitelist_check (some "aten::add".toList)
          ("aten".toList ++ ':' :: ':' :: "add".toList ++ '.' :: "Tensor".toList)
        = op_whitelist_check (some "aten::add".toList)
            ("aten".toList ++ ':' :: ':' :: "add".toList) :=
  ⟨by decide, by decide,
    C4_overload_suffix_never_changes_decision (some "aten::add".toList)
      "aten".toList "add".toList "Tensor".toList (by decide) (by decide)⟩

/-- C5: The claim says the `::` precondition of `op_whitelist_check` is
enforced by an assertion, so that evaluation on an input lacking `::` aborts
rather than returning a boolean.  In the code the assertion expression
(op_whitelist.h line 55) calls `.compare` on the `size_t` returned by `find`,
which is ill-formed C++, so the header only compiles when `assert` expands to
nothing; in every such build nothing is enforced and evaluation on a name
without `::` simply returns a boolean: on "add", with no allow-list
configured the check returns true, and with allow-list "aten::add" it
returns false. -/
theorem C5_missing_separator_not_aborted :
    hasNamespaceSep "add".toList = false
      ∧ op_whitelist_check none "add".toList = true
      ∧ op_whitelist_check (some "aten::add".toList) "add".toList = false := by
  refine ⟨by decide, rfl, ?_⟩
  simp only [op_whitelist_check]
  rw [op_whitelist_contains_eval]
  decide

/-- C6: Under the constrained (mobile) profile,
`dispatch_key_whitelist_check` returns true if and only if the key is one of
exactly five dispatch keys — CPU, Vulkan, QuantizedCPU, BackendSelect and
CatchAll — and returns false for every other key (including CUDA); under the
unrestricted profile it returns true for every key. -/
theorem C6_dispatch_key_admission :
    (∀ k : DispatchKey, dispatch_key_whitelist_check true k = true ↔
        (k = DispatchKey.CPU ∨ k = DispatchKey.Vulkan ∨ k = DispatchKey.QuantizedCPU
          ∨ k = DispatchKey.BackendSelect ∨ k = DispatchKey.CatchAll))
      ∧ (∀ k : DispatchKey, dispatch_key_whitelist_check false k = true)
      ∧ dispatch_key_whitelist_check true DispatchKey.CPU = true
      ∧ dispatch_key_whitelist_check true DispatchKey.CUDA = false := by
  refine ⟨?_, fun _ => rfl, rfl, rfl⟩
  intro k
  cases k <;> simp [dispatch_key_whitelist_check]

/-- C7: When the build-wide force-schema-registration flag
(`TORCH_FORCE_SCHEMA_REGISTRATION`) is active, `schema_whitelist_check`
returns true for every schema string, regardless of the configured operator
allow-list. -/
theorem C7_force_schema_registration_admits_all
    (cfg : Option (List Char)) (schema : List Char) :
    schema_whitelist_check true cfg schema = true := rfl

/-- C8: Every check (`op_whitelist_contains`, `op_whitelist_check`,
`schema_whitelist_check`, `dispatch_key_whitelist_check`) is deterministic:
under the same fixed build configuration, two evaluations on identical inputs
yield identical results.  The constexpr functions are embedded as pure Lean
functions, so the two runs coincide definitionally. -/
theorem C8_checks_deterministic :
    (∀ w t : List Char, op_whitelist_contains w t = op_whitelist_contains w t)
      ∧ (∀ (cfg : Option (List Char)) (nm : List Char),
          op_whitelist_check cfg nm = op_whitelist_check cfg nm)
      ∧ (∀ (force : Bool) (cfg : Option (List Char)) (s : List Char),
          schema_whitelist_check force cfg s = schema_whitelist_check force cfg s)
      ∧ (∀ (mobile : Bool) (k : DispatchKey),
          dispatch_key_whitelist_check mobile k = dispatch_key_whitelist_check mobile k) :=
  ⟨fun _ _ => rfl, fun _ _ => rfl, fun _ _ _ => rfl, fun _ _ => rfl⟩

/-- C9: `op_whitelist_contains` terminates for every pair of input strings:
whenever the scan finds the next delimiter at position i, the position just
past it is positive and the remaining suffix strictly shrinks, and the loop,
given any iteration budget larger than the length of the whitelist
(`containsFuel`), returns a value instead of exhausting the budget — the
embedded function is total by well-founded recursion on the remaining suffix
length. -/
theorem C9_op_whitelist_contains_terminates :
    (∀ (s : List Char) (i : Nat), findIdxChar ';' s = some i →
        0 < i + 1 ∧ (s.drop (i + 1)).length < s.length)
      ∧ (∀ (w t : List Char) (fuel : Nat), w.length < fuel →
          containsFuel t fuel w = some (op_whitelist_contains w t)) := by
  constructor
  · intro s i h
    have hlt := findIdxChar_lt_length h
    refine ⟨by omega, ?_⟩
    simp only [List.length_drop]
    omega
  · intro w t fuel h
    exact containsFuel_complete fuel w t h

theorem C9_op_whitelist_contains_terminates_witness :
    (findIdxChar ';' "a;b".toList = some 1)
      ∧ (("a;b".toList).drop 2).length < ("a;b".toList).length
      ∧ ("a;b".toList).length < 4
      ∧ containsFuel "b".toList 4 "a;b".toList
          = some (op_whitelist_contains "a;b".toList "b".toList) :=
  ⟨by decide,
    (C9_op_whitelist_contains_terminates.1 "a;b".toList 1 (by decide)).2,
    by decide,
    C9_op_whitelist_contains_terminates.2 "a;b".toList "b".toList 4 (by decide)⟩

/-- C10: If the operator allow-list is configured but is the empty string,
`op_whitelist_check` returns false for every operator name whose base name
(the text before the first `.`) is non-empty — a defined-but-empty allow-list
rejects every well-formed operator, in contrast to an absent allow-list which
admits all; equivalently, `op_whitelist_contains` on the empty list holds
only for the empty token. -/
theorem C10_empty_whitelist_rejects_nonempty_base :
    (∀ op_name : List Char, stripOverloadName op_name ≠ [] →
        op_whitelist_check (some []) op_name = false)
      ∧ (∀ op_name : List Char, op_whitelist_check none op_name = true)
      ∧ (∀ t : List Char, op_whitelist_contains [] t = true ↔ t = []) := by
  have hbase : ∀ t : List Char, op_whitelist_contains [] t = true ↔ t = [] := by
    intro t
    rw [op_whitelist_contains_none (rfl : findIdxChar ';' [] = none)]
    simp only [beq_iff_eq]
    exact eq_comm
  refine ⟨?_, fun _ => rfl, hbase⟩
  intro nm h
  simp only [op_whitelist_check]
  exact Bool.eq_false_iff.mpr (fun hb => h ((hbase _).mp hb))

theorem C10_empty_whitelist_rejects_nonempty_base_witness :
    (stripOverloadName "aten::add".toList ≠ [])
      ∧ op_whitelist_check (some []) "aten::add".toList = false :=
  ⟨by decide,
    C10_empty_whitelist_rejects_nonempty_base.1 "aten::add".toList (by decide)⟩
